import Mathlib

/-!
Verification of the MiniHive relational-algebra optimizer (src/raopt.py) and the
RA-to-MapReduce compiler and operator executors (src/ra2mr.py), as a shallow
embedding in Lean.

Modelling conventions, stated once:
* Python dicts (JSON tuples) are ordered association lists with distinct keys;
  dict assignment updates the value in place, insertion appends at the end.
* Python values flowing through tuples and conditions are modelled by `Value`
  (ints, strings, booleans, None).  Python raises TypeError when ordering
  incomparable kinds; the model returns `false` for such comparisons, and no
  claim below exercises that path.  Float literals (numeric literals containing
  a dot) are kept as raw strings; no claim exercises them.
* A Python set of strings is modelled by a list; only membership, subset and
  nonempty-intersection tests are performed on it, for which duplicates and
  order are irrelevant.  Where the source compares set cardinalities the list
  is deduplicated first.
* A crashed map task (an uncaught exception such as a TypeError on a missing
  rename alias) produces no output records; it is modelled by `none` / `[]`.
-/

/-- Python runtime values that occur in tuples and during condition
evaluation: JSON ints and strings, booleans produced by comparisons, and
None for unresolved attributes. -/
inductive Value
  | vInt (n : Int)
  | vStr (s : String)
  | vBool (b : Bool)
  | vNone
deriving DecidableEq

/-- Python truthiness of a `Value` (used by `if cond:` and by `and` / `or`). -/
def truthy : Value → Bool
  | .vNone => false
  | .vBool b => b
  | .vInt n => decide (n ≠ 0)
  | .vStr s => decide (s ≠ "")

/-- Python bool-to-int coercion used by numeric comparison of booleans. -/
def boolToInt (b : Bool) : Int := if b then 1 else 0

/-- Python `==` on the value kinds in scope (True == 1, None == None, and
cross-kind comparisons are unequal). -/
def pyEq : Value → Value → Bool
  | .vInt a, .vInt b => decide (a = b)
  | .vStr a, .vStr b => decide (a = b)
  | .vBool a, .vBool b => decide (a = b)
  | .vBool a, .vInt b => decide (boolToInt a = b)
  | .vInt a, .vBool b => decide (a = boolToInt b)
  | .vNone, .vNone => true
  | _, _ => false

/-- Lexicographic order on character lists by code point, Python string `<`. -/
def strListLt : List Char → List Char → Bool
  | [], [] => false
  | [], _ :: _ => true
  | _ :: _, [] => false
  | a :: as_, b :: bs =>
    if a.toNat < b.toNat then true
    else if b.toNat < a.toNat then false
    else strListLt as_ bs

/-- Python string `<`. -/
def strLtB (a b : String) : Bool := strListLt a.data b.data

/-- Python string less-or-equal. -/
def strLeB (a b : String) : Bool := strListLt a.data b.data || decide (a = b)

/-- Python `<` on values; ordering incomparable kinds is modelled as false
(the source would raise TypeError there). -/
def pyLt : Value → Value → Bool
  | .vInt a, .vInt b => decide (a < b)
  | .vStr a, .vStr b => strLtB a b
  | .vBool a, .vBool b => decide (boolToInt a < boolToInt b)
  | .vBool a, .vInt b => decide (boolToInt a < b)
  | .vInt a, .vBool b => decide (a < boolToInt b)
  | _, _ => false

/-- Python less-or-equal on values, same modelling boundary as `pyLt`. -/
def pyLe : Value → Value → Bool
  | .vInt a, .vInt b => decide (a ≤ b)
  | .vStr a, .vStr b => strLeB a b
  | .vBool a, .vBool b => decide (boolToInt a ≤ boolToInt b)
  | .vBool a, .vInt b => decide (boolToInt a ≤ b)
  | .vInt a, .vBool b => decide (a ≤ boolToInt b)
  | _, _ => false

/-- Whether a string contains a dot. -/
def hasDot (s : String) : Bool := s.data.contains '.'

/-- Characters strictly before the first dot. -/
def takeTilDot : List Char → List Char
  | [] => []
  | c :: t => if c = '.' then [] else c :: takeTilDot t

/-- Characters strictly after the first dot. -/
def dropTilDot : List Char → List Char
  | [] => []
  | c :: t => if c = '.' then t else dropTilDot t

/-- Python `s.split('.')[0]`: the part before the first dot (whole string if
there is no dot). -/
def qualOf (s : String) : String := String.mk (takeTilDot s.data)

/-- Python `s.split('.', 1)[-1]`: everything after the first dot, or the whole
string if there is no dot. -/
def afterFirstDot (s : String) : String :=
  if hasDot s then String.mk (dropTilDot s.data) else s

/-- Helper for the last dot-separated segment: walks the characters keeping
the segment started after the most recent dot. -/
def lastSegment (cur : List Char) : List Char → List Char
  | [] => cur
  | c :: t => if c = '.' then lastSegment [] t else lastSegment (cur ++ [c]) t

/-- Python `s.split('.')[-1]`: the last dot-separated component. -/
def lastComp (s : String) : String := String.mk (lastSegment [] s.data)

/-- Whether the character list `s` ends with `pat`. -/
def listEndsWith (s pat : List Char) : Bool :=
  decide (s.drop (s.length - pat.length) = pat)

/-- Python `s.endswith(pat)`. -/
def endsW (s pat : String) : Bool := listEndsWith s.data pat.data

/-- The suffix test used throughout the executors:
`k.endswith('.' + suf) or k == suf`. -/
def suffixMatch (k suf : String) : Bool := endsW k ("." ++ suf) || decide (k = suf)

/-- A JSON tuple: a Python dict as an ordered association list, keys distinct
in every dict the source produces. -/
abbrev Tuple := List (String × Value)

/-- Exact dict lookup, Python `tup[k]` / `k in tup`. -/
def lookupKey (k : String) : Tuple → Option Value
  | [] => none
  | (k', v) :: t => if k' = k then some v else lookupKey k t

/-- Python dict assignment `d[k] = v`: update in place if the key exists,
else append. -/
def dictInsert : Tuple → String → Value → Tuple
  | [], k, v => [(k, v)]
  | (k', v') :: t, k, v =>
    if k' = k then (k', v) :: t else (k', v') :: dictInsert t k v

/-- Python dict merge with the right side overwriting on key collision,
preserving insertion order as the merged dict does. -/
def dictUnion (l r : Tuple) : Tuple :=
  (l.map (fun p => (p.1, (lookupKey p.1 r).getD p.2)))
    ++ r.filter (fun p => (lookupKey p.1 l).isNone)

/-- First value in dict order whose key matches the suffix test (the
fall-back scan of the shared attribute resolution). -/
def firstSuffixVal (suf : String) : Tuple → Option Value
  | [] => none
  | (k, v) :: t => if suffixMatch k suf then some v else firstSuffixVal suf t

/-- First key-value entry in dict order whose key matches the suffix test
(used by the projection bodies, which keep the matched key). -/
def firstSuffixEntry (suf : String) : Tuple → Option (String × Value)
  | [] => none
  | (k, v) :: t => if suffixMatch k suf then some (k, v) else firstSuffixEntry suf t

/-- Insert an entry into a key-sorted tuple, keeping it sorted. -/
def insKey (p : String × Value) : Tuple → Tuple
  | [] => [p]
  | q :: t => if strLtB p.1 q.1 then p :: q :: t else q :: insKey p t

/-- Canonical key-sorted form of a tuple, the shape `json.dumps(...,
sort_keys=True)` serializes (used for dedup sets and emitted values). -/
def sortKeys (t : Tuple) : Tuple := t.foldr insKey []

/-- The qualifiers of the dotted keys of a tuple, Python
`set(k.split('.')[0] for k in tup if '.' in k)` as a list. -/
def qualsOf (t : Tuple) : List String :=
  t.filterMap (fun p => if hasDot p.1 then some (qualOf p.1) else none)

/-- An attribute reference `rel.name` or bare `name` (radb `AttrRef`). -/
structure AttrRef where
  rel : Option String
  name : String
deriving DecidableEq

/-- Python `str(attrref)`. -/
def attrStr (a : AttrRef) : String :=
  match a.rel with
  | some r => r ++ "." ++ a.name
  | none => a.name

/-- Binary operator symbols of radb conditions. -/
inductive RSym
  | EQ | NE | LT | LE | GT | GE | AND | OR
deriving DecidableEq

/-- Scalar-condition expressions: attribute references, string and numeric
literals carrying their raw source text, and binary operations. -/
inductive ValExpr
  | attr (a : AttrRef)
  | rastring (s : String)
  | ranumber (s : String)
  | binop (l : ValExpr) (op : RSym) (r : ValExpr)
deriving DecidableEq

/-- The shared attribute resolution (the AttrRef branch of `atom_value` in
SelectTask and ChainedTask, and `lookup` in JoinTask.mapper): the exact
qualified key first, else the first key in dict order matching the
unqualified suffix, else unresolved. -/
def lookup (a : AttrRef) (tup : Tuple) : Option Value :=
  match lookupKey (attrStr a) tup with
  | some v => some v
  | none => firstSuffixVal (lastComp (attrStr a)) tup

/-- Strip one layer of matching single or double quotes, Python
`v[1:-1]` under the evaluator's quote test. -/
def stripQ (s : String) : String :=
  match s.data with
  | [] => s
  | [_] => s
  | c :: cs =>
    if (c = '\'' && cs.getLastD ' ' = '\'') || (c = '"' && cs.getLastD ' ' = '"')
    then String.mk cs.dropLast else s

/-- Whether the quote-strip test of the evaluator fires. -/
def isQuoted (s : String) : Bool :=
  match s.data with
  | [] => false
  | [_] => false
  | c :: cs =>
    (c = '\'' && cs.getLastD ' ' = '\'') || (c = '"' && cs.getLastD ' ' = '"')

/-- Digit accumulation for the integer parse of numeric literals. -/
def digitsToNatAux (acc : Nat) : List Char → Option Nat
  | [] => some acc
  | c :: t =>
    if 48 ≤ c.toNat && c.toNat ≤ 57 then digitsToNatAux (acc * 10 + (c.toNat - 48)) t
    else none

/-- Parse a nonempty all-digit character list as a natural number. -/
def digitsToNat (l : List Char) : Option Nat :=
  match l with
  | [] => none
  | _ => digitsToNatAux 0 l

/-- Python `int(s)` on the numeral shapes radb produces: an optional leading
minus sign followed by digits (other accepted Python forms such as embedded
underscores or surrounding whitespace never occur in parsed numerals). -/
def strToIntQ (s : String) : Option Int :=
  match s.data with
  | '-' :: rest => (digitsToNat rest).map (fun n => -(n : Int))
  | l => (digitsToNat l).map (fun n => (n : Int))

/-- Literal and attribute atoms of the shared evaluator (`atom_value`):
attribute resolution as in `lookup`; quoted text unquoted; a dot-free numeric
literal parsed as an integer, anything else kept as raw text (the dot case is
a float in the source, outside the modelled value kinds). -/
def atom_value (x : ValExpr) (tup : Tuple) : Value :=
  match x with
  | .attr a =>
    match lookup a tup with
    | some v => v
    | none => .vNone
  | .rastring s => if isQuoted s then .vStr (stripQ s) else .vStr s
  | .ranumber s =>
    if isQuoted s then .vStr (stripQ s)
    else if hasDot s then .vStr s
    else match strToIntQ s with
      | some n => .vInt n
      | none => .vStr s
  | .binop _ _ _ => .vNone

/-- The shared condition evaluator `eval_cond`: comparisons via the Python
operators, AND and OR evaluating both operands eagerly and combining as
Python `and` / `or` do (returning one of the operand values). -/
def eval_cond (c : ValExpr) (tup : Tuple) : Value :=
  match c with
  | .binop l op r =>
    let lv := eval_cond l tup
    let rv := eval_cond r tup
    match op with
    | .EQ => .vBool (pyEq lv rv)
    | .NE => .vBool (!pyEq lv rv)
    | .LT => .vBool (pyLt lv rv)
    | .LE => .vBool (pyLe lv rv)
    | .GT => .vBool (pyLt rv lv)
    | .GE => .vBool (pyLe rv lv)
    | .AND => if truthy lv then rv else lv
    | .OR => if truthy lv then lv else rv
  | x => atom_value x tup

/-- One folded operation of a `ChainedOp`: the `(kind, params)` pairs
collected by `try_fold_chain`. -/
inductive ChainOp
  | cselect (c : ValExpr)
  | cproject (attrs : List AttrRef)
  | crename (relname : Option String) (attrnames : Option (List String))
deriving DecidableEq

/-- Relational-algebra trees: the radb node kinds used by the system plus the
fused `ChainedOp` node defined in ra2mr. -/
inductive RA
  | relRef (rel : String)
  | select (cond : ValExpr) (input : RA)
  | project (attrs : List AttrRef) (input : RA)
  | rename (relname : Option String) (attrnames : Option (List String)) (input : RA)
  | cross (l r : RA)
  | join (l : RA) (cond : ValExpr) (r : RA)
  | chainedOp (ops : List ChainOp) (input : RA)
deriving DecidableEq

/-- raopt `extract_condition_attrs`: every attribute name referenced by a
condition, each dotted name also contributing its part after the first dot
(a list standing for the Python set). -/
def extract_condition_attrs : ValExpr → List String
  | .attr a =>
    let s := attrStr a
    s :: (if hasDot s then [afterFirstDot s] else [])
  | .binop l _ r => extract_condition_attrs l ++ extract_condition_attrs r
  | _ => []

/-- Schema directory lookup, Python `dd.get(rel, {})`. -/
def ddGet : List (String × List String) → String → List String
  | [], _ => []
  | (n, attrs) :: t, r => if n = r then attrs else ddGet t r

/-- raopt `extract_expr_attrs`: the derivable attribute set of a subtree.
RelRef contributes bare and qualified names from the schema directory; Rename
re-qualifies inherited names under its alias while keeping them bare
(an absent alias would raise in the source and contributes nothing here);
Select and Project are transparent; Cross and Join union both sides;
anything else (including ChainedOp) contributes nothing. -/
def extract_expr_attrs (dd : List (String × List String)) : RA → List String
  | .relRef n => (ddGet dd n).flatMap (fun a => [a, n ++ "." ++ a])
  | .rename rn _ e =>
    match rn with
    | some n =>
      (extract_expr_attrs dd e).flatMap (fun a =>
        if hasDot a then [afterFirstDot a, n ++ "." ++ afterFirstDot a]
        else [a, n ++ "." ++ a])
    | none => []
  | .select _ e => extract_expr_attrs dd e
  | .project _ e => extract_expr_attrs dd e
  | .cross l r => extract_expr_attrs dd l ++ extract_expr_attrs dd r
  | .join l _ r => extract_expr_attrs dd l ++ extract_expr_attrs dd r
  | _ => []

/-- raopt `can_push_down`: the condition's referenced attributes are a subset
of the subtree's derivable attributes. -/
def can_push_down (cond : ValExpr) (e : RA) (dd : List (String × List String)) : Bool :=
  (extract_condition_attrs cond).all (fun a => (extract_expr_attrs dd e).contains a)

/-- raopt `is_join_condition`: with qualified attributes present, test the
qualifier sets against the qualifiers of each side's dotted attributes;
otherwise fall back to raw membership against each side's attribute set. -/
def is_join_condition (cond : ValExpr) (leftAttrs rightAttrs : List String) : Bool :=
  let condAttrs := extract_condition_attrs cond
  let qualified := condAttrs.filter hasDot
  if qualified.isEmpty then
    (condAttrs.any (fun a => leftAttrs.contains a))
      && (condAttrs.any (fun a => rightAttrs.contains a))
  else
    let lp := (leftAttrs.filter hasDot).map qualOf
    let rp := (rightAttrs.filter hasDot).map qualOf
    let cp := qualified.map qualOf
    (cp.any (fun a => lp.contains a)) && (cp.any (fun a => rp.contains a))

/-- The select chain built by `rule_break_up_selections` for one condition:
an AND condition is split, the left conjunct ending up as the outer Select.
The source re-invokes the rule on the rebuilt outer Select; that recursion is
equivalent to folding down the AND spine of the condition, which is the form
encoded here (see the unfold theorem on Select nodes proved below). -/
def breakUpCond (c : ValExpr) (base : RA) : RA :=
  match c with
  | .binop a .AND b => breakUpCond a (breakUpCond b base)
  | c => .select c base

/-- raopt `rule_break_up_selections`: decompose conjunctive selections,
rebuild the other recognized node kinds, pass anything else through. -/
def rule_break_up_selections : RA → RA
  | .select c e => breakUpCond c (rule_break_up_selections e)
  | .project a e => .project a (rule_break_up_selections e)
  | .rename rn an e => .rename rn an (rule_break_up_selections e)
  | .cross l r => .cross (rule_break_up_selections l) (rule_break_up_selections r)
  | .join l c r => .join (rule_break_up_selections l) c (rule_break_up_selections r)
  | e => e

/-- The conditions of the maximal vertical run of Selects from a node,
outer to inner, together with the first non-Select node below the run
(the `while isinstance(cur, Select)` loop of `rule_merge_selections`). -/
def collectConds : RA → List ValExpr × RA
  | .select c e =>
    let p := collectConds e
    (c :: p.1, p.2)
  | e => ([], e)

/-- Left-associated AND chain `((c and c1) and c2) ...` as the merge loop
builds it. -/
def leftAssocAnd (c : ValExpr) (cs : List ValExpr) : ValExpr :=
  cs.foldl (fun acc x => .binop acc .AND x) c

/-- Size bound for the run collector, used for the termination measure of
the merge rule. -/
def collectConds_sizeLe : (t : RA) → sizeOf (collectConds t).2 ≤ sizeOf t
  | .relRef _ => le_refl _
  | .select c e => by
    have h := collectConds_sizeLe e
    simp only [collectConds]
    simp
    omega
  | .project _ _ => le_refl _
  | .rename _ _ _ => le_refl _
  | .cross _ _ => le_refl _
  | .join _ _ _ => le_refl _
  | .chainedOp _ _ => le_refl _

/-- raopt `rule_merge_selections`: collapse a vertical run of Selects into a
single Select conjoining the conditions outer to inner with AND, recurse
below the run, rebuild other recognized kinds, pass anything else through. -/
def rule_merge_selections : RA → RA
  | .select c e =>
    let p := collectConds e
    .select (leftAssocAnd c p.1) (rule_merge_selections p.2)
  | .project a e => .project a (rule_merge_selections e)
  | .rename rn an e => .rename rn an (rule_merge_selections e)
  | .cross l r => .cross (rule_merge_selections l) (rule_merge_selections r)
  | .join l c r => .join (rule_merge_selections l) c (rule_merge_selections r)
  | e => e
termination_by e => sizeOf e
decreasing_by
  all_goals simp_wf
  all_goals first
  | omega
  | (have h2 := collectConds_sizeLe e
     omega)

/-- The Select push step of raopt `rule_push_down_selections`, applied to the
already-rewritten child.  Case 1 (a Cross child): a join condition stays
directly above the Cross; otherwise the condition is pushed into the left
child if its attributes derive there, else into the right child, else left in
place.  Case 2 (a Select over a Cross): when the outer condition is not a
join condition but the inner one is, the outer condition is pushed past the
Cross while the inner Select stays adjacent to it.  Any other child keeps the
Select in place.  The source expresses the push by re-invoking the whole rule
on a fresh Select over the (already fully rewritten) grandchild; that
re-invocation is this step again, which is what the recursion here encodes. -/
def pushSel (dd : List (String × List String)) (c : ValExpr) : RA → RA
  | .cross l r =>
    if is_join_condition c (extract_expr_attrs dd l) (extract_expr_attrs dd r) then
      .select c (.cross l r)
    else if can_push_down c l dd then
      .cross (pushSel dd c l) r
    else if can_push_down c r dd then
      .cross l (pushSel dd c r)
    else
      .select c (.cross l r)
  | .select d (.cross l r) =>
    if !is_join_condition c (extract_expr_attrs dd l) (extract_expr_attrs dd r)
        && is_join_condition d (extract_expr_attrs dd l) (extract_expr_attrs dd r) then
      if can_push_down c l dd then
        .select d (.cross (pushSel dd c l) r)
      else if can_push_down c r dd then
        .select d (.cross l (pushSel dd c r))
      else
        .select c (.select d (.cross l r))
    else
      .select c (.select d (.cross l r))
  | e => .select c e

/-- raopt `rule_push_down_selections`: rewrite the input of each Select first,
then apply the push step; rebuild the other recognized kinds; pass anything
else through. -/
def rule_push_down_selections (dd : List (String × List String)) : RA → RA
  | .select c e => pushSel dd c (rule_push_down_selections dd e)
  | .project a e => .project a (rule_push_down_selections dd e)
  | .rename rn an e => .rename rn an (rule_push_down_selections dd e)
  | .cross l r => .cross (rule_push_down_selections dd l) (rule_push_down_selections dd r)
  | .join l c r => .join (rule_push_down_selections dd l) c (rule_push_down_selections dd r)
  | e => e

/-- raopt `extract_relations`: RelRef contributes its name, Rename its alias
(an absent alias puts Python None in the set, which no string label ever
matches, so it is modelled as contributing nothing), Select and Project are
transparent, Cross and Join union both sides, anything else is empty. -/
def extract_relations : RA → List String
  | .relRef n => [n]
  | .rename rn _ _ =>
    match rn with
    | some n => [n]
    | none => []
  | .select _ e => extract_relations e
  | .project _ e => extract_relations e
  | .cross l r => extract_relations l ++ extract_relations r
  | .join l _ r => extract_relations l ++ extract_relations r
  | _ => []

/-- raopt `extract_condition_prefixes`: the qualifiers of the qualified
attribute references of a condition. -/
def extract_condition_prefixes : ValExpr → List String
  | .attr a =>
    let s := attrStr a
    if hasDot s then [qualOf s] else []
  | .binop l _ r => extract_condition_prefixes l ++ extract_condition_prefixes r
  | _ => []

/-- raopt `rule_introduce_joins`: bottom-up, rewrite a Select over a Cross to
a Join when the condition's qualifier set intersects both sides' relation
names; rebuild other recognized kinds; pass anything else through. -/
def rule_introduce_joins : RA → RA
  | .select c e =>
    match rule_introduce_joins e with
    | .cross l r =>
      if ((extract_condition_prefixes c).any (fun p => (extract_relations l).contains p))
          && ((extract_condition_prefixes c).any (fun p => (extract_relations r).contains p)) then
        .join l c r
      else
        .select c (.cross l r)
    | e' => .select c e'
  | .project a e => .project a (rule_introduce_joins e)
  | .rename rn an e => .rename rn an (rule_introduce_joins e)
  | .cross l r => .cross (rule_introduce_joins l) (rule_introduce_joins r)
  | .join l c r => .join (rule_introduce_joins l) c (rule_introduce_joins r)
  | e => e

/-- The AttrRef rebuilt from a required attribute name by projection
push-down (`to_attr_ref`). -/
def toAttrRef (name : String) : AttrRef :=
  if hasDot name then AttrRef.mk (some (qualOf name)) (afterFirstDot name)
  else AttrRef.mk none name

/-- The tree returned by raopt `rule_push_down_projections`.  The source
first reassigns each node's input list to the recursively rewritten children
(an in-place mutation, see the mutated-state view below), then, on a Project
whose rewritten child is a Join, inserts a narrower Project under a branch
exactly when it reduces that branch's derivable attribute count; the outer
Project is kept above the rebuilt Join.  Set iteration order is modelled as
first-occurrence order of the underlying list. -/
def rppRet (dd : List (String × List String)) : RA → RA
  | .relRef n => .relRef n
  | .select c e => .select c (rppRet dd e)
  | .rename rn an e => .rename rn an (rppRet dd e)
  | .cross l r => .cross (rppRet dd l) (rppRet dd r)
  | .join l c r => .join (rppRet dd l) c (rppRet dd r)
  | .chainedOp ops e => .chainedOp ops (rppRet dd e)
  | .project attrs e =>
    match rppRet dd e with
    | .join l c r =>
      let required := (extract_condition_attrs c ++ attrs.map attrStr).dedup
      let leftAll := extract_expr_attrs dd l
      let rightAll := extract_expr_attrs dd r
      let leftNeeded := (required.filter (fun a => leftAll.contains a)).map toAttrRef
      let rightNeeded := (required.filter (fun a => rightAll.contains a)).map toAttrRef
      let newL := if leftNeeded.length < leftAll.dedup.length then .project leftNeeded l else l
      let newR := if rightNeeded.length < rightAll.dedup.length then .project rightNeeded r else r
      .project attrs (.join newL c newR)
    | e' => .project attrs e'

/-- The state of the input tree object after raopt
`rule_push_down_projections` returns: the pass reassigns the node's input
list to the rewritten children in place, so the caller's tree now carries the
rewritten children even where the returned tree is a fresh node. -/
def rppMut (dd : List (String × List String)) : RA → RA
  | .relRef n => .relRef n
  | .select c e => .select c (rppRet dd e)
  | .project a e => .project a (rppRet dd e)
  | .rename rn an e => .rename rn an (rppRet dd e)
  | .cross l r => .cross (rppRet dd l) (rppRet dd r)
  | .join l c r => .join (rppRet dd l) c (rppRet dd r)
  | .chainedOp ops e => .chainedOp ops (rppRet dd e)

/-- ra2mr `count_steps`: ChainedOp is a single step over its input, as are
Select, Project and Rename; Join adds both sides; RelRef is one step.  The
source raises on Cross (the optimizer must have eliminated it); Cross is
given count 0 here and never reaches the compiler. -/
def count_steps : RA → Nat
  | .chainedOp _ e => 1 + count_steps e
  | .select _ e => 1 + count_steps e
  | .project _ e => 1 + count_steps e
  | .rename _ _ e => 1 + count_steps e
  | .join l _ r => 1 + count_steps l + count_steps r
  | .relRef _ => 1
  | .cross _ _ => 0

/-- The stage indices assigned across a compiled task DAG rooted at step `s`:
each single-input task hands its child `s + 1`; a Join hands its left child
`s + 1` and its right child `s + count_steps left + 1` (`JoinTask.requires`).
RelRef compiles to an input-data task that carries no stage index. -/
def stageIndices : RA → Nat → List Nat
  | .chainedOp _ e, s => s :: stageIndices e (s + 1)
  | .select _ e, s => s :: stageIndices e (s + 1)
  | .project _ e, s => s :: stageIndices e (s + 1)
  | .rename _ _ e, s => s :: stageIndices e (s + 1)
  | .join l _ r, s => s :: (stageIndices l (s + 1) ++ stageIndices r (s + count_steps l + 1))
  | .relRef _, _ => []
  | .cross _ _, _ => []

/-- The maximal vertical run of Select, Project and Rename operations from a
node, outer to inner, with the node below the run (the collection loop of
ra2mr `try_fold_chain`). -/
def collectChainOps : RA → List ChainOp × RA
  | .select c e =>
    let p := collectChainOps e
    (.cselect c :: p.1, p.2)
  | .project a e =>
    let p := collectChainOps e
    (.cproject a :: p.1, p.2)
  | .rename rn an e =>
    let p := collectChainOps e
    (.crename rn an :: p.1, p.2)
  | e => ([], e)

/-- ra2mr `try_fold_chain`: a run of at least two foldable operations becomes
one ChainedOp holding them reversed (inner to outer) over the terminal
subtree; otherwise the node is rebuilt with its children folded
independently, Cross, RelRef and existing ChainedOp nodes left as they are. -/
def try_fold_chain (e : RA) : RA :=
  if 2 ≤ (collectChainOps e).1.length then
    .chainedOp (collectChainOps e).1.reverse (collectChainOps e).2
  else
    match e with
    | .select c i => .select c (try_fold_chain i)
    | .project a i => .project a (try_fold_chain i)
    | .rename rn an i => .rename rn an (try_fold_chain i)
    | .join l c r => .join (try_fold_chain l) c (try_fold_chain r)
    | x => x

/-- The projection step inside `ChainedTask.mapper`: for each requested
attribute, the first entry of the current tuple matching the unqualified
suffix is kept under its original key (there is no exact-qualified test in
this body, unlike the standalone ProjectTask). -/
def chainProject (attrs : List AttrRef) (tup : Tuple) : Tuple :=
  attrs.foldl (fun out a =>
    match firstSuffixEntry a.name tup with
    | some (k, v) => dictInsert out k v
    | none => out) []

/-- The rename step shared by `ChainedTask.mapper` and `RenameTask.mapper`:
every key is rewritten to the alias plus the part of the key after its first
dot (the whole key if it has no dot); colliding rewritten keys collapse as
Python dict assignment does. -/
def renameKeys (n : String) (tup : Tuple) : Tuple :=
  tup.foldl (fun acc p => dictInsert acc (n ++ "." ++ afterFirstDot p.1) p.2) []

/-- One record through the operation list of `ChainedTask.mapper`, applied
inner to outer: a select drops the record when its condition is not truthy, a
project narrows the running tuple, a rename with an alias re-qualifies the
keys and the relation label and without an alias changes nothing. -/
def applyChainOps : List ChainOp → String → Tuple → Option (String × Tuple)
  | [], rel, tup => some (rel, tup)
  | .cselect c :: rest, rel, tup =>
    if truthy (eval_cond c tup) then applyChainOps rest rel tup else none
  | .cproject attrs :: rest, rel, tup => applyChainOps rest rel (chainProject attrs tup)
  | .crename rn _ :: rest, rel, tup =>
    match rn with
    | some n => applyChainOps rest n (renameKeys n tup)
    | none => applyChainOps rest rel tup

/-- The surviving records of the ChainedTask map phase over an input record
list. -/
def chainMapRun (ops : List ChainOp) (records : List (String × Tuple)) :
    List (String × Tuple) :=
  records.filterMap (fun p => applyChainOps ops p.1 p.2)

/-- First-occurrence deduplication, the `seen`-set pattern of the reduce
bodies. -/
def dkfAux {α : Type} [DecidableEq α] : List α → List α → List α
  | [], _ => []
  | t :: ts, seen => if t ∈ seen then dkfAux ts seen else t :: dkfAux ts (t :: seen)

/-- Deduplicate keeping the first occurrence of each element. -/
def dedupKeepFirst {α : Type} [DecidableEq α] (l : List α) : List α := dkfAux l []

/-- `ChainedTask.reducer` on one key group: the touch key contributes
nothing (the body returns before emitting), any other group is emitted
deduplicated; the empty-placeholder branch fires only when a group has no
values at all, which the shuffle never produces. -/
def chainedReduceGroup (k : String) (vals : List Tuple) : List (String × Tuple) :=
  if k = "__touch__" then []
  else if vals.isEmpty then [("__empty__", [])]
  else (dedupKeepFirst vals).map (fun t => (k, t))

/-- A whole ChainedTask execution: the mapper emits one touch pair per
non-empty input plus the surviving records (values in key-sorted serialized
form), the shuffle groups by key, and the reducer handles each group. -/
def chainedFullRun (ops : List ChainOp) (records : List (String × Tuple)) :
    List (String × Tuple) :=
  let survivors := (chainMapRun ops records).map (fun p => (p.1, sortKeys p.2))
  let pairs := (if records.isEmpty then [] else [("__touch__", ([] : Tuple))]) ++ survivors
  let keys := (pairs.map (fun p => p.1)).dedup
  keys.flatMap (fun k =>
    chainedReduceGroup k (pairs.filterMap (fun p => if p.1 = k then some p.2 else none)))

/-- The tuple restriction of `ProjectTask.mapper`: for each requested
attribute, the exact qualified key is kept first (stored under the
attribute's printed name), else the first suffix-matching entry is kept
under its original key. -/
def projectTaskRestrict (attrs : List AttrRef) (tup : Tuple) : Tuple :=
  attrs.foldl (fun out a =>
    match lookupKey (attrStr a) tup with
    | some v => dictInsert out (attrStr a) v
    | none =>
      match firstSuffixEntry a.name tup with
      | some (k, v) => dictInsert out k v
      | none => out) []

/-- The relation label recomputed by `ProjectTask.reducer`: the qualifier of
the first dotted key of the (key-sorted) projected tuple, else "result". -/
def projectLabel (t : Tuple) : String :=
  match t.find? (fun p => hasDot p.1) with
  | some p => qualOf p.1
  | none => "result"

/-- A whole standalone ProjectTask stage: the mapper keys each record by its
serialized (key-sorted) restricted tuple, the reducer emits one record per
distinct key relabeled from its first dotted attribute. -/
def projectStage (attrs : List AttrRef) (records : List (String × Tuple)) :
    List (String × Tuple) :=
  (dedupKeepFirst (records.map (fun p => sortKeys (projectTaskRestrict attrs p.2)))).map
    (fun t => (projectLabel t, t))

/-- `RenameTask.mapper` on one record: with an alias, rewrite the keys and
the label; without one the source raises concatenating None (modelled as a
crashed record, `none`) rather than passing the record through. -/
def renameTaskMapper (rn : Option String) (rel : String) (tup : Tuple) :
    Option (String × Tuple) :=
  match rn with
  | some n => some (n, renameKeys n tup)
  | none => none

/-- One unfused physical stage for a foldable operation: SelectTask filters
by the shared evaluator, ProjectTask restricts, dedups and relabels,
RenameTask with an alias rewrites keys and label, and RenameTask without an
alias crashes (a crashed stage materializes no records). -/
def stageRun (records : List (String × Tuple)) : ChainOp → List (String × Tuple)
  | .cselect c => records.filter (fun p => truthy (eval_cond c p.2))
  | .cproject attrs => projectStage attrs records
  | .crename rn _ =>
    match rn with
    | some n => records.map (fun p => (n, renameKeys n p.2))
    | none => []

/-- The unfused operator sequence executed stage by stage, innermost stage
first (the order the task DAG runs them). -/
def unfusedRun (ops : List ChainOp) (records : List (String × Tuple)) :
    List (String × Tuple) :=
  ops.foldl stageRun records

/-- `JoinTask.mapper`'s `collect_eq_pairs`: the top-level
attribute = attribute equality conjuncts of a condition, gathered through
AND only. -/
def collect_eq_pairs : ValExpr → List (AttrRef × AttrRef)
  | .binop l op r =>
    match op with
    | .EQ =>
      match l, r with
      | .attr a, .attr b => [(a, b)]
      | _, _ => []
    | .AND => collect_eq_pairs l ++ collect_eq_pairs r
    | _ => []
  | _ => []

/-- Python `str(value)` as used to build repartition keys. -/
def valStr : Value → String
  | .vInt n => toString n
  | .vStr s => s
  | .vBool b => if b then "True" else "False"
  | .vNone => "None"

/-- The Python-level result of the join mapper's `lookup`: the source
returns the plain value or None, so an absent key and a stored JSON null
are the same Python None (vNone here). -/
def lookupPy (a : AttrRef) (tup : Tuple) : Value :=
  match lookup a tup with
  | some v => v
  | none => .vNone

/-- One matched equality value per equality pair of `JoinTask.mapper`:
`v = lookup(l); if v is None: v = lookup(r); if v is not None: append(str(v))`.
The left attribute is looked up first, the right as fall-back on None, and
the pair is skipped when the result is still None — a record whose stored
join attribute IS null is therefore dropped exactly like one lacking the
attribute. -/
def mapKeyVals (cond : ValExpr) (tup : Tuple) : List String :=
  (collect_eq_pairs cond).filterMap (fun pr =>
    let v := lookupPy pr.1 tup
    let v2 := if v = Value.vNone then lookupPy pr.2 tup else v
    if v2 = Value.vNone then none else some (valStr v2))

/-- The serialized composite key for several matched values
(`json.dumps(vals, separators=...)`; string escaping is omitted, which only
coarsens grouping and is never exercised by the claims). -/
def jsonListStr (vs : List String) : String :=
  "[" ++ String.intercalate "," (vs.map (fun s => "\"" ++ s ++ "\"")) ++ "]"

/-- The repartition key emitted by `JoinTask.mapper` for one tuple: the
single matched value itself, a composite for several, and no emission when
no equality pair resolves. -/
def mapKey (cond : ValExpr) (tup : Tuple) : Option String :=
  match mapKeyVals cond tup with
  | [] => none
  | [v] => some v
  | vs => some (jsonListStr vs)

/-- The keyed records the join map phase hands to the shuffle. -/
def keyedRecords (cond : ValExpr) (records : List (String × Tuple)) :
    List (String × (String × Tuple)) :=
  records.filterMap (fun p => (mapKey cond p.2).map (fun k => (k, p)))

/-- The value group the shuffle delivers for one key. -/
def groupOf (cond : ValExpr) (records : List (String × Tuple)) (k : String) :
    List (String × Tuple) :=
  (keyedRecords cond records).filterMap (fun q => if q.1 = k then some q.2 else none)

/-- `JoinTask.reducer`'s `rels`: the relation names of a branch subtree
(RelRef its name, Rename its alias, everything with inputs the union of its
children; an absent alias contributes Python None, which no string label
matches, modelled as nothing). -/
def relsOf : RA → List String
  | .relRef n => [n]
  | .rename rn _ _ =>
    match rn with
    | some n => [n]
    | none => []
  | .select _ e => relsOf e
  | .project _ e => relsOf e
  | .cross l r => relsOf l ++ relsOf r
  | .join l _ r => relsOf l ++ relsOf r
  | .chainedOp _ e => relsOf e

/-- The left candidate list of `JoinTask.reducer`: a record joins it when its
label is a left relation name, or, failing both label tests, when some
qualifier of its keys is a left relation name. -/
def leftCandidates (leftR rightR : List String) (vals : List (String × Tuple)) :
    List Tuple :=
  vals.filterMap (fun p =>
    if p.1 ∈ leftR then some p.2
    else if p.1 ∈ rightR then none
    else if (qualsOf p.2).any (fun q => q ∈ leftR) then some p.2
    else none)

/-- The right candidate list of `JoinTask.reducer`, symmetric to the left one
(a label-less match on both sides joins both lists). -/
def rightCandidates (leftR rightR : List String) (vals : List (String × Tuple)) :
    List Tuple :=
  vals.filterMap (fun p =>
    if p.1 ∈ leftR then none
    else if p.1 ∈ rightR then some p.2
    else if (qualsOf p.2).any (fun q => q ∈ rightR) then some p.2
    else none)

/-- The cross-multiplication loop of `JoinTask.reducer`: every left-right
pair is merged right-over-left, kept when the full original condition is
truthy on the merged tuple, serialized key-sorted, and deduplicated within
the group. -/
def crossEmit (cond : ValExpr) (leftT rightT : List Tuple) : List Tuple :=
  dedupKeepFirst (leftT.flatMap (fun l => rightT.filterMap (fun r =>
    let m := dictUnion l r
    if truthy (eval_cond cond m) then some (sortKeys m) else none)))

/-- `JoinTask.reducer` on one key group (the emitted merged tuples; the
output label, taken from an arbitrary element of the left relation-name set,
is not part of the claims and is dropped). -/
def reduceJoin (cond : ValExpr) (leftR rightR : List String)
    (vals : List (String × Tuple)) : List Tuple :=
  let lt_ := leftCandidates leftR rightR vals
  let rt_ := rightCandidates leftR rightR vals
  if lt_.isEmpty || rt_.isEmpty then [] else crossEmit cond lt_ rt_

/-- The distinct repartition keys of a join execution. -/
def joinKeys (cond : ValExpr) (records : List (String × Tuple)) : List String :=
  ((keyedRecords cond records).map (fun q => q.1)).dedup

/-- A whole JoinTask execution over labeled input records: map, shuffle into
key groups, reduce each group. -/
def joinOutput (cond : ValExpr) (leftR rightR : List String)
    (records : List (String × Tuple)) : List Tuple :=
  (joinKeys cond records).flatMap (fun k =>
    reduceJoin cond leftR rightR (groupOf cond records k))

/-- The reference join of the specification: every merged pair of input
tuples on which the full condition is truthy, in the same key-sorted
serialized form the executor emits. -/
def refJoin (cond : ValExpr) (L R : List Tuple) : List Tuple :=
  L.flatMap (fun l => R.filterMap (fun r =>
    let m := dictUnion l r
    if truthy (eval_cond cond m) then some (sortKeys m) else none))

/-- Modelled from the spec: attribute resolution as the specification words
it, with the suffix step succeeding only on a UNIQUE suffix-matching key
(the source, by contrast, takes the first match in dict order). -/
def lookupAttrSpec (a : AttrRef) (tup : Tuple) : Option Value :=
  match lookupKey (attrStr a) tup with
  | some v => some v
  | none =>
    match tup.filter (fun p => suffixMatch p.1 (lastComp (attrStr a))) with
    | [p] => some p.2
    | _ => none

/-- The number of keys of a tuple matching the unqualified suffix of an
attribute (used to state the uniqueness side conditions of claim C9). -/
def suffixMatchCount (a : AttrRef) (tup : Tuple) : Nat :=
  (tup.filter (fun p => suffixMatch p.1 (lastComp (attrStr a)))).length

/-- The top-level AND conjuncts of a condition, left to right. -/
def flattenAnd : ValExpr → List ValExpr
  | .binop a .AND b => flattenAnd a ++ flattenAnd b
  | c => [c]

/-- The left-associated AND chain of a conjunct list (the shape the merge
rule builds); the list is never empty where this is used. -/
def andChain : List ValExpr → ValExpr
  | [] => .ranumber "1"
  | c :: cs => leftAssocAnd c cs

/-- Whether a condition is an AND at its top. -/
def isTopAnd : ValExpr → Bool
  | .binop _ .AND _ => true
  | _ => false

/-- Whether no Select anywhere in a tree carries a top-level AND condition. -/
def noTopAndSel : RA → Bool
  | .relRef _ => true
  | .select c e => !isTopAnd c && noTopAndSel e
  | .project _ e => noTopAndSel e
  | .rename _ _ e => noTopAndSel e
  | .cross l r => noTopAndSel l && noTopAndSel r
  | .join l _ r => noTopAndSel l && noTopAndSel r
  | .chainedOp _ e => noTopAndSel e

/-- Whether a tree contains no fused ChainedOp node (every optimizer input
tree satisfies this; the fold runs after the optimizer). -/
def noChained : RA → Bool
  | .relRef _ => true
  | .select _ e => noChained e
  | .project _ e => noChained e
  | .rename _ _ e => noChained e
  | .cross l r => noChained l && noChained r
  | .join l _ r => noChained l && noChained r
  | .chainedOp _ _ => false

/-- A vertical run of Selects with the given conditions, outer to inner. -/
def selectChain (cs : List ValExpr) (b : RA) : RA := cs.foldr .select b

/-- Whether a node is a Select. -/
def isSelect : RA → Bool
  | .select _ _ => true
  | _ => false

/-- The chain operations whose fused and standalone stage semantics coincide:
selects, and renames that carry an alias. -/
def chainFusable : ChainOp → Bool
  | .cselect _ => true
  | .crename (some _) _ => true
  | _ => false

/-- Example join condition `L.a = R.a`. -/
def exCond1 : ValExpr := .binop (.attr ⟨some "L", "a"⟩) .EQ (.attr ⟨some "R", "a"⟩)

/-- Example join input where the left tuple lacks the join attribute. -/
def exRecs1 : List (String × Tuple) :=
  [("L", [("L.x", .vInt 1)]), ("R", [("R.a", .vInt 5)])]

/-- Example join input records for the well-behaved instance. -/
def exLrecs : List (String × Tuple) := [("L", [("L.a", .vInt 1)])]

/-- Right-side records of the well-behaved join instance. -/
def exRrecs : List (String × Tuple) := [("R", [("R.a", .vInt 1)])]

/-- A trivially true select condition, `1 = 1`. -/
def condTrue : ValExpr := .binop (.ranumber "1") .EQ (.ranumber "1")

/-- A trivially false select condition, `1 = 2`. -/
def condFalse : ValExpr := .binop (.ranumber "1") .EQ (.ranumber "2")

/-- Example foldable chain select-then-project on attribute x. -/
def exOps2 : List ChainOp := [.cselect condTrue, .cproject [⟨none, "x"⟩]]

/-- Example input record with an unqualified key. -/
def exRecs2 : List (String × Tuple) := [("R", [("x", .vInt 1)])]

/-- Example chain of fusable operations (select then aliased rename). -/
def exOps2w : List ChainOp := [.cselect condTrue, .crename (some "P") none]

/-- Example input record with a qualified key. -/
def exRecs3 : List (String × Tuple) := [("R", [("R.x", .vInt 1)])]

/-- Example chain whose select drops every record. -/
def exOps3 : List ChainOp := [.cselect condFalse, .cproject [⟨none, "x"⟩]]

/-- Example schema directory: Person with id and name, Dept with id and pid. -/
def exDD : List (String × List String) :=
  [("Person", ["id", "name"]), ("Dept", ["id", "pid"])]

/-- The scenario condition `Person.id = 5`, referencing only Person
attributes. -/
def exCond5 : ValExpr := .binop (.attr ⟨some "Person", "id"⟩) .EQ (.ranumber "5")

/-- The equality join condition `Person.id = Dept.pid`. -/
def exCondJ : ValExpr :=
  .binop (.attr ⟨some "Person", "id"⟩) .EQ (.attr ⟨some "Dept", "pid"⟩)

/-- Schema directory for the projection push-down example (distinct Dept
attribute names so both branches get pruned). -/
def exDD8 : List (String × List String) :=
  [("Person", ["id", "name"]), ("Dept", ["pid", "dname"])]

/-- A tree whose projection push-down rewrites an inner child in place: a
Select over a firing Project-over-Join. -/
def exTree8 : RA :=
  .select (.ranumber "1")
    (.project [⟨some "Person", "id"⟩]
      (.join (.relRef "Person") exCondJ (.relRef "Dept")))

/-- Example qualified tuple for the rename claims. -/
def exTup7 : Tuple := [("R.x", .vInt 1)]

/-- Example attribute whose qualifier matches no key of the ambiguous
tuple. -/
def exAttr9 : AttrRef := ⟨some "C", "x"⟩

/-- A tuple with two keys sharing the unqualified suffix x. -/
def exTup9 : Tuple := [("A.x", .vInt 1), ("B.x", .vInt 2)]

/-- A join-reduce group record whose label matches neither branch but whose
key qualifiers intersect both branches. -/
def exVals10 : List (String × Tuple) :=
  [("Q", [("L.a", .vInt 1), ("R.b", .vInt 2)])]

/-- Python `and` on values: the left operand if it is falsy, else the right
operand (both already evaluated). -/
def pyAnd (u v : Value) : Value := if truthy u then v else u

/-- Lower and upper bounds of every stage index a subtree receives. -/
theorem stageIndices_bound (q : RA) : ∀ s x, x ∈ stageIndices q s →
    s ≤ x ∧ x < s + count_steps q := by
  induction q with
  | relRef n => intro s x hx; simp [stageIndices] at hx
  | select c e ih =>
    intro s x hx
    simp only [stageIndices, List.mem_cons] at hx
    rcases hx with h | h
    · subst h; simp only [count_steps]; omega
    · have := ih (s + 1) x h
      simp [count_steps]; omega
  | project a e ih =>
    intro s x hx
    simp only [stageIndices, List.mem_cons] at hx
    rcases hx with h | h
    · subst h; simp only [count_steps]; omega
    · have := ih (s + 1) x h
      simp [count_steps]; omega
  | rename rn an e ih =>
    intro s x hx
    simp only [stageIndices, List.mem_cons] at hx
    rcases hx with h | h
    · subst h; simp only [count_steps]; omega
    · have := ih (s + 1) x h
      simp [count_steps]; omega
  | chainedOp ops e ih =>
    intro s x hx
    simp only [stageIndices, List.mem_cons] at hx
    rcases hx with h | h
    · subst h; simp only [count_steps]; omega
    · have := ih (s + 1) x h
      simp [count_steps]; omega
  | cross l r ihl ihr => intro s x hx; simp [stageIndices] at hx
  | join l c r ihl ihr =>
    intro s x hx
    simp only [stageIndices, List.mem_cons, List.mem_append] at hx
    rcases hx with h | h | h
    · subst h; simp only [count_steps]; omega
    · have := ihl (s + 1) x h
      simp [count_steps]; omega
    · have := ihr (s + count_steps l + 1) x h
      simp [count_steps]; omega

/-- No two tasks of a compiled DAG share a stage index. -/
theorem stageIndices_nodup (q : RA) : ∀ s, (stageIndices q s).Nodup := by
  induction q with
  | relRef n => intro s; simp [stageIndices]
  | select c e ih =>
    intro s
    simp only [stageIndices, List.nodup_cons]
    refine ⟨fun hmem => ?_, ih (s + 1)⟩
    have := stageIndices_bound e (s + 1) s hmem
    omega
  | project a e ih =>
    intro s
    simp only [stageIndices, List.nodup_cons]
    refine ⟨fun hmem => ?_, ih (s + 1)⟩
    have := stageIndices_bound e (s + 1) s hmem
    omega
  | rename rn an e ih =>
    intro s
    simp only [stageIndices, List.nodup_cons]
    refine ⟨fun hmem => ?_, ih (s + 1)⟩
    have := stageIndices_bound e (s + 1) s hmem
    omega
  | chainedOp ops e ih =>
    intro s
    simp only [stageIndices, List.nodup_cons]
    refine ⟨fun hmem => ?_, ih (s + 1)⟩
    have := stageIndices_bound e (s + 1) s hmem
    omega
  | cross l r ihl ihr => intro s; simp [stageIndices]
  | join l c r ihl ihr =>
    intro s
    simp only [stageIndices, List.nodup_cons, List.nodup_append]
    refine ⟨fun hmem => ?_, ihl (s + 1), ihr (s + count_steps l + 1), ?_⟩
    · rcases List.mem_append.mp hmem with h | h
      · have := stageIndices_bound l (s + 1) s h
        omega
      · have := stageIndices_bound r (s + count_steps l + 1) s h
        omega
    · intro x hx hy
      have hb1 := stageIndices_bound l (s + 1) x hx
      have hb2 := stageIndices_bound r (s + count_steps l + 1) x hy
      omega

/-- C6: the stage count of the task compiler satisfies the stated recurrences
(RelRef one stage, every single-input operator including a fused ChainedOp
one stage over its child, Join one plus both children), and the stage indices
the compiled DAG assigns from any root step, offsetting a Join's right child
by the left child's count, are globally distinct. -/
theorem c6_stage_counting :
    (∀ n, count_steps (RA.relRef n) = 1)
    ∧ (∀ c e, count_steps (RA.select c e) = 1 + count_steps e)
    ∧ (∀ a e, count_steps (RA.project a e) = 1 + count_steps e)
    ∧ (∀ rn an e, count_steps (RA.rename rn an e) = 1 + count_steps e)
    ∧ (∀ ops e, count_steps (RA.chainedOp ops e) = 1 + count_steps e)
    ∧ (∀ l c r, count_steps (RA.join l c r) = 1 + count_steps l + count_steps r)
    ∧ (∀ q s, (stageIndices q s).Nodup) := by
  refine ⟨fun n => rfl, fun c e => rfl, fun a e => rfl, fun rn an e => rfl,
    fun ops e => rfl, fun l c r => rfl, fun q s => stageIndices_nodup q s⟩

/-- C5: at a Select over a Cross, selection push-down keeps a join condition
directly above the Cross; a non-join condition is pushed into the left child
when its attributes derive there, else into the right child when they derive
there, and stays in place when neither qualifies; the rule reaches this
dispatch by rewriting the Select's input first; and the scenario
sigma Person.id=5 (Person x Dept) pushes the condition fully onto the Person
branch, leaving the Cross intact and introducing no Join. -/
theorem c5_selection_push_down (dd : List (String × List String)) (c : ValExpr) (l r : RA) :
    (is_join_condition c (extract_expr_attrs dd l) (extract_expr_attrs dd r) = true →
      pushSel dd c (RA.cross l r) = RA.select c (RA.cross l r))
    ∧ (is_join_condition c (extract_expr_attrs dd l) (extract_expr_attrs dd r) = false →
        can_push_down c l dd = true →
      pushSel dd c (RA.cross l r) = RA.cross (pushSel dd c l) r)
    ∧ (is_join_condition c (extract_expr_attrs dd l) (extract_expr_attrs dd r) = false →
        can_push_down c l dd = false → can_push_down c r dd = true →
      pushSel dd c (RA.cross l r) = RA.cross l (pushSel dd c r))
    ∧ (is_join_condition c (extract_expr_attrs dd l) (extract_expr_attrs dd r) = false →
        can_push_down c l dd = false → can_push_down c r dd = false →
      pushSel dd c (RA.cross l r) = RA.select c (RA.cross l r))
    ∧ (∀ e, rule_push_down_selections dd (RA.select c e)
        = pushSel dd c (rule_push_down_selections dd e))
    ∧ rule_push_down_selections exDD
        (RA.select exCond5 (RA.cross (RA.relRef "Person") (RA.relRef "Dept")))
      = RA.cross (RA.select exCond5 (RA.relRef "Person")) (RA.relRef "Dept") := by
  refine ⟨?_, ?_, ?_, ?_, fun e => rfl, by decide⟩
  · intro hj; simp [pushSel, hj]
  · intro hj hl; simp [pushSel, hj, hl]
  · intro hj hl hr; simp [pushSel, hj, hl, hr]
  · intro hj hl hr; simp [pushSel, hj, hl, hr]

/-- Witness for C5: the equality join condition Person.id = Dept.pid over
Person x Dept is classified as a join condition and stays directly above the
Cross. -/
theorem c5_selection_push_down_witness :
    is_join_condition exCondJ
        (extract_expr_attrs exDD (RA.relRef "Person"))
        (extract_expr_attrs exDD (RA.relRef "Dept")) = true
    ∧ pushSel exDD exCondJ (RA.cross (RA.relRef "Person") (RA.relRef "Dept"))
      = RA.select exCondJ (RA.cross (RA.relRef "Person") (RA.relRef "Dept")) :=
  ⟨by decide,
    (c5_selection_push_down exDD exCondJ (RA.relRef "Person") (RA.relRef "Dept")).1
      (by decide)⟩

/-- C8 counterexample: projection push-down mutates its input tree in place;
after running it on a Select over a firing Project-over-Join, the input
tree's child link holds the rewritten subtree, so the post-call state of the
input differs from the tree that was passed in. -/
theorem c8_counterexample : rppMut exDD8 exTree8 ≠ exTree8 := by decide

/-- C8 amended: each optimizer pass returns a tree and passes unrecognized
node kinds (here the fused ChainedOp, which no raopt rule matches) through
untransformed; the four selection and join passes leave such a node fully
unchanged, while projection push-down, which walks any node carrying inputs,
rewrites the node's children in place and returns the same mutated node. -/
theorem c8_passes_pure_passthrough :
    (∀ ops e, rule_break_up_selections (RA.chainedOp ops e) = RA.chainedOp ops e)
    ∧ (∀ ops e, rule_merge_selections (RA.chainedOp ops e) = RA.chainedOp ops e)
    ∧ (∀ dd ops e, rule_push_down_selections dd (RA.chainedOp ops e) = RA.chainedOp ops e)
    ∧ (∀ ops e, rule_introduce_joins (RA.chainedOp ops e) = RA.chainedOp ops e)
    ∧ (∀ dd ops e, rppRet dd (RA.chainedOp ops e) = RA.chainedOp ops (rppRet dd e))
    ∧ (∀ dd ops e, rppMut dd (RA.chainedOp ops e) = RA.chainedOp ops (rppRet dd e)) := by
  refine ⟨fun ops e => rfl, fun ops e => ?_, fun dd ops e => rfl, fun ops e => rfl,
    fun dd ops e => rfl, fun dd ops e => rfl⟩
  simp [rule_merge_selections]

/-- The suffix fall-back scan returns the head of the filtered suffix
matches. -/
theorem firstSuffixVal_filter (suf : String) (t : Tuple) :
    firstSuffixVal suf t
      = ((t.filter (fun p => suffixMatch p.1 suf)).head?).map Prod.snd := by
  induction t with
  | nil => rfl
  | cons p t ih =>
    by_cases h : suffixMatch p.1 suf
    · simp [firstSuffixVal, List.filter_cons, h]
    · simp [firstSuffixVal, List.filter_cons, h, ih]

/-- C9 counterexample: with two keys sharing the unqualified suffix, the
shared resolution returns the first match in dict order, where the claimed
precedence (a UNIQUE suffix match, else unresolved) yields no value. -/
theorem c9_counterexample :
    lookup exAttr9 exTup9 = some (Value.vInt 1)
    ∧ lookupAttrSpec exAttr9 exTup9 = none := by decide

/-- C9 amended: the shared attribute resolution takes the exact qualified key
first; otherwise it takes the FIRST key in dict order whose unqualified
suffix matches (agreeing with the spec's unique-match reading whenever
exactly one key matches); otherwise it is unresolved. -/
theorem c9_resolution_amended (a : AttrRef) (t : Tuple) :
    ((lookupKey (attrStr a) t).isSome = true → lookup a t = lookupKey (attrStr a) t)
    ∧ (lookupKey (attrStr a) t = none →
        lookup a t = firstSuffixVal (lastComp (attrStr a)) t)
    ∧ (suffixMatchCount a t = 1 → lookup a t = lookupAttrSpec a t)
    ∧ (lookupKey (attrStr a) t = none → suffixMatchCount a t = 0 → lookup a t = none) := by
  refine ⟨?_, ?_, ?_, ?_⟩
  · intro h
    unfold lookup
    cases hk : lookupKey (attrStr a) t with
    | none => rw [hk] at h; simp at h
    | some v => rfl
  · intro h
    unfold lookup
    rw [h]
  · intro h
    unfold lookup lookupAttrSpec
    cases hk : lookupKey (attrStr a) t with
    | some v => rfl
    | none =>
      unfold suffixMatchCount at h
      obtain ⟨p, hp⟩ := List.length_eq_one.mp h
      rw [firstSuffixVal_filter, hp]
      rfl
  · intro h h0
    unfold lookup
    rw [h]
    unfold suffixMatchCount at h0
    rw [firstSuffixVal_filter, List.length_eq_zero.mp h0]
    rfl

/-- Witness for C9: a tuple holding the exact qualified key resolves to it,
and a tuple with a unique suffix match agrees with the spec's reading. -/
theorem c9_resolution_amended_witness :
    (lookupKey (attrStr (AttrRef.mk (some "P") "x")) [("P.x", Value.vInt 1)]).isSome = true
    ∧ lookup (AttrRef.mk (some "P") "x") [("P.x", Value.vInt 1)]
      = lookupKey (attrStr (AttrRef.mk (some "P") "x")) [("P.x", Value.vInt 1)]
    ∧ suffixMatchCount exAttr9 [("A.x", Value.vInt 1)] = 1
    ∧ lookup exAttr9 [("A.x", Value.vInt 1)]
      = lookupAttrSpec exAttr9 [("A.x", Value.vInt 1)] :=
  ⟨by decide,
    (c9_resolution_amended (AttrRef.mk (some "P") "x") [("P.x", Value.vInt 1)]).1 (by decide),
    by decide,
    (c9_resolution_amended exAttr9 [("A.x", Value.vInt 1)]).2.2.1 (by decide)⟩

/-- Exact lookup distributes over dict append, left side first. -/
theorem lookupKey_append (k : String) (a b : Tuple) :
    lookupKey k (a ++ b)
      = match lookupKey k a with
        | some v => some v
        | none => lookupKey k b := by
  induction a with
  | nil => simp [lookupKey]
  | cons p a ih =>
    by_cases h : p.1 = k
    · simp [lookupKey, h]
    · simpa [lookupKey, h] using ih

/-- Dict assignment of an absent key appends the entry. -/
theorem dictInsert_absent (k : String) (v : Value) :
    ∀ (acc : Tuple), lookupKey k acc = none → dictInsert acc k v = acc ++ [(k, v)] := by
  intro acc
  induction acc with
  | nil => intro _; rfl
  | cons p t ih =>
    intro h
    by_cases hk : p.1 = k
    · simp [lookupKey, hk] at h
    · simp [lookupKey, hk] at h
      simp [dictInsert, hk, ih h]

/-- A fold of dict assignments under a key-rewriting function equals the
plain map when the rewritten keys are distinct and absent from the
accumulator. -/
theorem foldl_dictInsert_eq_map (g : String → String) :
    ∀ (l : List (String × Value)) (acc : Tuple),
      (l.map (fun p => g p.1)).Nodup →
      (∀ p ∈ l, lookupKey (g p.1) acc = none) →
      l.foldl (fun acc p => dictInsert acc (g p.1) p.2) acc
        = acc ++ l.map (fun p => (g p.1, p.2)) := by
  intro l
  induction l with
  | nil => intro acc _ _; simp
  | cons p l ih =>
    intro acc hnd habs
    have hstep : dictInsert acc (g p.1) p.2 = acc ++ [(g p.1, p.2)] :=
      dictInsert_absent _ _ _ (habs p (List.mem_cons_self p l))
    simp only [List.foldl_cons, hstep]
    have hnd' : (l.map (fun p => g p.1)).Nodup := (List.nodup_cons.mp hnd).2
    have hne : g p.1 ∉ l.map (fun q => g q.1) := (List.nodup_cons.mp hnd).1
    have habs' : ∀ q ∈ l, lookupKey (g q.1) (acc ++ [(g p.1, p.2)]) = none := by
      intro q hq
      rw [lookupKey_append]
      rw [habs q (List.mem_cons_of_mem p hq)]
      have hneq : g p.1 ≠ g q.1 := by
        intro hc
        exact hne (hc ▸ List.mem_map_of_mem (fun r => g r.1) hq)
      simp [lookupKey, hneq]
    rw [ih (acc ++ [(g p.1, p.2)]) hnd' habs']
    simp

/-- C7 counterexample: the standalone RenameTask map phase is not a no-op
passthrough when the alias is absent; it fails on the record (the source
concatenates None with a string) instead of emitting it unchanged. -/
theorem c7_counterexample : renameTaskMapper none "R" exTup7 ≠ some ("R", exTup7) := by
  decide

/-- C7 amended: with an alias present the rename map phase rewrites every
key's qualifier to the alias keeping the part after the first dot and
relabels the record (shown as the plain key map whenever the rewritten keys
are distinct); the absent-alias no-op passthrough holds in the fused chain's
rename step, while the standalone RenameTask requires a present alias. -/
theorem c7_rename_amended (n rel : String) (tup : Tuple) :
    renameTaskMapper (some n) rel tup = some (n, renameKeys n tup)
    ∧ ((tup.map (fun p => n ++ "." ++ afterFirstDot p.1)).Nodup →
        renameKeys n tup = tup.map (fun p => (n ++ "." ++ afterFirstDot p.1, p.2)))
    ∧ (∀ an rest r0 t0,
        applyChainOps (ChainOp.crename none an :: rest) r0 t0 = applyChainOps rest r0 t0)
    ∧ (∀ an rest r0 t0,
        applyChainOps (ChainOp.crename (some n) an :: rest) r0 t0
          = applyChainOps rest n (renameKeys n t0)) := by
  refine ⟨rfl, ?_, fun an rest r0 t0 => rfl, fun an rest r0 t0 => rfl⟩
  intro hnd
  unfold renameKeys
  simpa using foldl_dictInsert_eq_map (fun k => n ++ "." ++ afterFirstDot k) tup [] hnd
    (fun p _ => rfl)

/-- Witness for C7: renaming the single-entry tuple R.x to alias P rewrites
the key to P.x. -/
theorem c7_rename_amended_witness :
    (exTup7.map (fun p => "P" ++ "." ++ afterFirstDot p.1)).Nodup
    ∧ renameKeys "P" exTup7
      = exTup7.map (fun p => ("P" ++ "." ++ afterFirstDot p.1, p.2)) :=
  ⟨by decide, (c7_rename_amended "P" "R" exTup7).2.1 (by decide)⟩

/-- C10: a grouped record whose relation label matches neither branch's
relation-name set but whose qualified key prefixes intersect both sets joins
BOTH candidate lists of the join reduce phase, so it participates on both
sides of the cross-multiplication within its key group. -/
theorem c10_ambiguous_both_sides (leftR rightR : List String)
    (vals : List (String × Tuple)) (rel : String) (tup : Tuple)
    (hmem : (rel, tup) ∈ vals) (hl : rel ∉ leftR) (hr : rel ∉ rightR)
    (hql : (qualsOf tup).any (fun q => decide (q ∈ leftR)) = true)
    (hqr : (qualsOf tup).any (fun q => decide (q ∈ rightR)) = true) :
    tup ∈ leftCandidates leftR rightR vals ∧ tup ∈ rightCandidates leftR rightR vals := by
  constructor
  · refine List.mem_filterMap.mpr ⟨(rel, tup), hmem, ?_⟩
    simp only [if_neg hl, if_neg hr]
    simp only [hql, if_pos]
  · refine List.mem_filterMap.mpr ⟨(rel, tup), hmem, ?_⟩
    simp only [if_neg hl, if_neg hr]
    simp only [hqr, if_pos]

/-- Witness for C10: the record labeled Q with keys qualified by both L and R
lands in both candidate lists. -/
theorem c10_ambiguous_both_sides_witness :
    (("Q", [("L.a", Value.vInt 1), ("R.b", Value.vInt 2)]) ∈ exVals10)
    ∧ [("L.a", Value.vInt 1), ("R.b", Value.vInt 2)] ∈ leftCandidates ["L"] ["R"] exVals10
    ∧ [("L.a", Value.vInt 1), ("R.b", Value.vInt 2)] ∈ rightCandidates ["L"] ["R"] exVals10 :=
  ⟨by decide,
    (c10_ambiguous_both_sides ["L"] ["R"] exVals10 "Q"
      [("L.a", Value.vInt 1), ("R.b", Value.vInt 2)]
      (by decide) (by decide) (by decide) (by decide) (by decide)).1,
    (c10_ambiguous_both_sides ["L"] ["R"] exVals10 "Q"
      [("L.a", Value.vInt 1), ("R.b", Value.vInt 2)]
      (by decide) (by decide) (by decide) (by decide) (by decide)).2⟩

/-- Python `and` is associative on values. -/
theorem pyAnd_assoc (a b c : Value) : pyAnd (pyAnd a b) c = pyAnd a (pyAnd b c) := by
  by_cases ha : truthy a
  · simp [pyAnd, ha]
  · simp [pyAnd, ha]

/-- Evaluating a left-associated AND chain folds Python `and` over the
conjunct values. -/
theorem eval_leftAssocAnd (cs : List ValExpr) : ∀ (c : ValExpr) (t : Tuple),
    eval_cond (leftAssocAnd c cs) t
      = cs.foldl (fun acc x => pyAnd acc (eval_cond x t)) (eval_cond c t) := by
  induction cs with
  | nil => intro c t; rfl
  | cons c' cs ih =>
    intro c t
    have h1 : leftAssocAnd c (c' :: cs) = leftAssocAnd (ValExpr.binop c RSym.AND c') cs := rfl
    rw [h1, ih]
    rfl

/-- Folding Python `and` commutes with an outer conjunct. -/
theorem foldl_pyAnd (t : Tuple) (vs : List ValExpr) : ∀ (A B : Value),
    vs.foldl (fun acc x => pyAnd acc (eval_cond x t)) (pyAnd A B)
      = pyAnd A (vs.foldl (fun acc x => pyAnd acc (eval_cond x t)) B) := by
  induction vs with
  | nil => intro A B; rfl
  | cons v vs ih =>
    intro A B
    simp only [List.foldl_cons]
    rw [pyAnd_assoc, ih]

/-- The top-level conjunct list of a condition is never empty. -/
theorem flattenAnd_ne_nil (c : ValExpr) : flattenAnd c ≠ [] := by
  induction c with
  | binop l op r ihl ihr =>
    cases op
    case AND =>
      intro h
      simp only [flattenAnd] at h
      exact ihl (List.append_eq_nil.mp h).1
    all_goals simp [flattenAnd]
  | attr a => simp [flattenAnd]
  | rastring s => simp [flattenAnd]
  | ranumber s => simp [flattenAnd]

/-- Evaluating the AND chain of an appended conjunct list conjoins the two
chains with Python `and`. -/
theorem eval_andChain_append (xs ys : List ValExpr) (t : Tuple)
    (hx : xs ≠ []) (hy : ys ≠ []) :
    eval_cond (andChain (xs ++ ys)) t
      = pyAnd (eval_cond (andChain xs) t) (eval_cond (andChain ys) t) := by
  match xs, hx with
  | x :: xs', _ =>
    match ys, hy with
    | y :: ys', _ =>
      simp only [List.cons_append, andChain, eval_leftAssocAnd, List.foldl_append,
        List.foldl_cons]
      rw [foldl_pyAnd]

/-- The left-associated chain of a condition's top-level conjuncts evaluates
exactly as the condition itself, on every tuple. -/
theorem eval_flattenAnd (c : ValExpr) (t : Tuple) :
    eval_cond (andChain (flattenAnd c)) t = eval_cond c t := by
  induction c with
  | binop l op r ihl ihr =>
    cases op <;> try rfl
    case AND =>
      show eval_cond (andChain (flattenAnd l ++ flattenAnd r)) t = _
      rw [eval_andChain_append _ _ _ (flattenAnd_ne_nil l) (flattenAnd_ne_nil r), ihl, ihr]
      rfl
  | attr a => rfl
  | rastring s => rfl
  | ranumber s => rfl

/-- The select chain the decompose rule builds for one condition is the
Select chain of the condition's top-level conjuncts in order. -/
theorem breakUpCond_selectChain (c : ValExpr) : ∀ (base : RA),
    breakUpCond c base = selectChain (flattenAnd c) base := by
  induction c with
  | binop l op r ihl ihr =>
    intro base
    cases op <;> try rfl
    case AND =>
      show breakUpCond l (breakUpCond r base) = selectChain (flattenAnd l ++ flattenAnd r) base
      rw [ihr, ihl]
      simp [selectChain, List.foldr_append]
  | attr a => intro base; rfl
  | rastring s => intro base; rfl
  | ranumber s => intro base; rfl

/-- The run collector on a non-Select node returns the node with no
conditions. -/
theorem collectConds_not_select (b : RA) (h : isSelect b = false) :
    collectConds b = ([], b) := by
  cases b <;> simp_all [isSelect, collectConds]

/-- The run collector reads back a select chain over a non-Select base. -/
theorem collectConds_selectChain (cs : List ValExpr) (b : RA) (h : isSelect b = false) :
    collectConds (selectChain cs b) = (cs, b) := by
  induction cs with
  | nil => exact collectConds_not_select b h
  | cons c cs ih =>
    show collectConds (RA.select c (selectChain cs b)) = _
    simp [collectConds, ih]

/-- The merge rule collapses a select chain over a non-Select base into one
Select conjoining the conditions outer to inner, left-associated. -/
theorem merge_selectChain (d : ValExpr) (cs : List ValExpr) (b : RA)
    (h : isSelect b = false) :
    rule_merge_selections (selectChain (d :: cs) b)
      = RA.select (leftAssocAnd d cs) (rule_merge_selections b) := by
  show rule_merge_selections (RA.select d (selectChain cs b)) = _
  rw [rule_merge_selections]
  simp [collectConds_selectChain cs b h]

/-- Decomposition of one condition over an AND-free-at-top base keeps every
Select AND-free at the top. -/
theorem noTopAndSel_breakUpCond (c : ValExpr) : ∀ (base : RA),
    noTopAndSel base = true → noTopAndSel (breakUpCond c base) = true := by
  induction c with
  | binop l op r ihl ihr =>
    intro base hb
    cases op <;> simp_all [breakUpCond, noTopAndSel, isTopAnd]
  | attr a => intro base hb; simp_all [breakUpCond, noTopAndSel, isTopAnd]
  | rastring s => intro base hb; simp_all [breakUpCond, noTopAndSel, isTopAnd]
  | ranumber s => intro base hb; simp_all [breakUpCond, noTopAndSel, isTopAnd]

/-- The decompose rule keeps a non-Select head. -/
theorem breakup_not_select (b : RA) (h : isSelect b = false) :
    isSelect (rule_break_up_selections b) = false := by
  cases b <;> simp_all [rule_break_up_selections, isSelect]

/-- After the decompose rule, no Select of a ChainedOp-free tree carries a
top-level AND condition. -/
theorem breakup_noTopAndSel (e : RA) (h : noChained e = true) :
    noTopAndSel (rule_break_up_selections e) = true := by
  induction e with
  | relRef n => rfl
  | select c e ih =>
    exact noTopAndSel_breakUpCond c _ (ih (by simpa [noChained] using h))
  | project a e ih => simp_all [rule_break_up_selections, noTopAndSel, noChained]
  | rename rn an e ih => simp_all [rule_break_up_selections, noTopAndSel, noChained]
  | cross l r ihl ihr => simp_all [rule_break_up_selections, noTopAndSel, noChained]
  | join l c r ihl ihr => simp_all [rule_break_up_selections, noTopAndSel, noChained]
  | chainedOp ops e ih => simp [noChained] at h

/-- C4: for a tree whose top Select condition is an AND chain over a
non-Select, ChainedOp-free input, merging after decomposing yields a single
Select whose condition is the order-preserving left-associated AND chain of
the original top-level conjuncts; that chain evaluates exactly as the
original condition on every tuple; decomposition leaves no Select with a
top-level AND; and the merge rule conjoins any vertical Select run outer to
inner with AND. -/
theorem c4_decompose_merge (c : ValExpr) (B : RA)
    (hB : isSelect B = false) (hnc : noChained B = true) :
    rule_merge_selections (rule_break_up_selections (RA.select c B))
      = RA.select (andChain (flattenAnd c))
          (rule_merge_selections (rule_break_up_selections B))
    ∧ (∀ t, eval_cond (andChain (flattenAnd c)) t = eval_cond c t)
    ∧ noTopAndSel (rule_break_up_selections (RA.select c B)) = true
    ∧ (∀ d cs b, isSelect b = false →
        rule_merge_selections (selectChain (d :: cs) b)
          = RA.select (leftAssocAnd d cs) (rule_merge_selections b)) := by
  refine ⟨?_, fun t => eval_flattenAnd c t, ?_, fun d cs b hb => merge_selectChain d cs b hb⟩
  · show rule_merge_selections (breakUpCond c (rule_break_up_selections B)) = _
    rw [breakUpCond_selectChain]
    obtain ⟨c0, cs, hflat⟩ : ∃ c0 cs, flattenAnd c = c0 :: cs := by
      cases hf : flattenAnd c with
      | nil => exact absurd hf (flattenAnd_ne_nil c)
      | cons a l => exact ⟨a, l, rfl⟩
    rw [hflat, merge_selectChain c0 cs _ (breakup_not_select B hB)]
    rfl
  · exact breakup_noTopAndSel _ (by simpa [noChained] using hnc)

/-- Witness for C4: decomposing and re-merging sigma a AND b over the bare
relation T yields the single Select with the same left-associated chain. -/
theorem c4_decompose_merge_witness :
    isSelect (RA.relRef "T") = false
    ∧ noChained (RA.relRef "T") = true
    ∧ rule_merge_selections (rule_break_up_selections
        (RA.select (ValExpr.binop (ValExpr.attr (AttrRef.mk none "a")) RSym.AND
          (ValExpr.attr (AttrRef.mk none "b"))) (RA.relRef "T")))
      = RA.select (andChain (flattenAnd (ValExpr.binop
          (ValExpr.attr (AttrRef.mk none "a")) RSym.AND
          (ValExpr.attr (AttrRef.mk none "b")))))
          (rule_merge_selections (rule_break_up_selections (RA.relRef "T"))) :=
  ⟨rfl, rfl,
    (c4_decompose_merge
      (ValExpr.binop (ValExpr.attr (AttrRef.mk none "a")) RSym.AND
        (ValExpr.attr (AttrRef.mk none "b")))
      (RA.relRef "T") rfl rfl).1⟩

/-- A filterMap guarded by a boolean test is the filterMap of the filtered
list. -/
theorem filterMap_if_filter {α β : Type} (p : α → Bool) (f : α → Option β)
    (l : List α) :
    l.filterMap (fun a => if p a then f a else none) = (l.filter p).filterMap f := by
  induction l with
  | nil => rfl
  | cons a l ih =>
    by_cases h : p a
    · simp only [List.filterMap_cons, List.filter_cons, h, if_true]
      cases hfa : f a <;> simp [hfa, ih]
    · simp only [List.filterMap_cons, List.filter_cons, h, if_false,
        Bool.false_eq_true, ih]

/-- C2 counterexample: on the chain select-true then project x over the
record (R, x=1), the fused ChainedOp keeps the record labeled R while the
unfused stage sequence relabels it to result (the standalone ProjectTask
recomputes the label from the projected keys), so the surviving
(relation, tuple) sets differ. -/
theorem c2_counterexample :
    ("R", [("x", Value.vInt 1)]) ∈ chainMapRun exOps2 exRecs2
    ∧ ("R", [("x", Value.vInt 1)]) ∉ unfusedRun exOps2 exRecs2 := by decide

/-- C2 amended: for a vertical run whose operations are selects and
alias-bearing renames (no project: the fused project body resolves
attributes by first-suffix-match and keeps the incoming label, while the
standalone ProjectTask prefers exact-qualified keys and relabels), the fused
ChainedOp map phase produces exactly the record list of the unfused stage
sequence; and chain folding stores a run's operations reversed, inner to
outer, over the terminal subtree. -/
theorem c2_chain_fusion_amended (ops : List ChainOp) (records : List (String × Tuple))
    (h : ∀ op ∈ ops, chainFusable op = true) :
    chainMapRun ops records = unfusedRun ops records
    ∧ (∀ c rn an nm,
        try_fold_chain (RA.select c (RA.rename rn an (RA.relRef nm)))
          = RA.chainedOp [ChainOp.crename rn an, ChainOp.cselect c] (RA.relRef nm)) := by
  refine ⟨?_, fun c rn an nm => rfl⟩
  induction ops generalizing records with
  | nil =>
    simp [chainMapRun, applyChainOps, unfusedRun]
  | cons op ops ih =>
    have hop := h op (List.mem_cons_self op ops)
    have hops : ∀ o ∈ ops, chainFusable o = true :=
      fun o ho => h o (List.mem_cons_of_mem op ho)
    cases op with
    | cselect c =>
      show records.filterMap
          (fun p => if truthy (eval_cond c p.2) then applyChainOps ops p.1 p.2 else none)
        = unfusedRun (ChainOp.cselect c :: ops) records
      rw [filterMap_if_filter (fun p => truthy (eval_cond c p.2))
        (fun p => applyChainOps ops p.1 p.2) records]
      exact ih _ hops
    | cproject attrs => simp [chainFusable] at hop
    | crename rn an =>
      cases rn with
      | none => simp [chainFusable] at hop
      | some n =>
        show records.filterMap (fun p => applyChainOps ops n (renameKeys n p.2))
          = unfusedRun (ChainOp.crename (some n) an :: ops) records
        have hmap :
            records.filterMap (fun p => applyChainOps ops n (renameKeys n p.2))
              = (records.map (fun p => (n, renameKeys n p.2))).filterMap
                  (fun q => applyChainOps ops q.1 q.2) := by
          rw [List.filterMap_map]
          rfl
        rw [hmap]
        exact ih _ hops

/-- Witness for C2: the select-then-aliased-rename chain over (R, R.x=1)
produces the same records fused and unfused. -/
theorem c2_chain_fusion_amended_witness :
    (∀ op ∈ exOps2w, chainFusable op = true)
    ∧ chainMapRun exOps2w exRecs3 = unfusedRun exOps2w exRecs3 :=
  ⟨by decide, (c2_chain_fusion_amended exOps2w exRecs3 (by decide)).1⟩

/-- C3: on an execution whose chain drops every input record, the ChainedTask
reduce phase emits nothing at all: the lone touch-key group returns before
emitting, and the empty-placeholder branch is unreachable for any group the
shuffle can form, so no recognizable empty-placeholder record appears and a
downstream stage sees zero records. -/
theorem c3_placeholder_never_emitted : chainedFullRun exOps3 exRecs3 = [] := by decide

/-- Membership in the first-occurrence dedup helper. -/
theorem mem_dkfAux {α : Type} [DecidableEq α] (l : List α) :
    ∀ (seen : List α) (x : α), x ∈ dkfAux l seen ↔ (x ∈ l ∧ x ∉ seen) := by
  induction l with
  | nil => intro seen x; simp [dkfAux]
  | cons t ts ih =>
    intro seen x
    by_cases ht : t ∈ seen
    · rw [dkfAux, if_pos ht, ih]
      constructor
      · rintro ⟨h1, h2⟩; exact ⟨List.mem_cons_of_mem t h1, h2⟩
      · rintro ⟨h1, h2⟩
        rcases List.mem_cons.mp h1 with h | h
        · subst h; exact absurd ht h2
        · exact ⟨h, h2⟩
    · rw [dkfAux, if_neg ht]
      constructor
      · intro hx
        rcases List.mem_cons.mp hx with h | h
        · rw [h]; exact ⟨List.mem_cons_self t ts, ht⟩
        · obtain ⟨h1, h2⟩ := (ih (t :: seen) x).mp h
          exact ⟨List.mem_cons_of_mem t h1,
            fun hc => h2 (List.mem_cons_of_mem t hc)⟩
      · rintro ⟨h1, h2⟩
        rcases List.mem_cons.mp h1 with h | h
        · rw [h]; exact List.mem_cons_self t _
        · by_cases hxt : x = t
          · rw [hxt]; exact List.mem_cons_self t _
          · exact List.mem_cons_of_mem t ((ih (t :: seen) x).mpr
              ⟨h, fun hc => by
                rcases List.mem_cons.mp hc with h' | h'
                · exact hxt h'
                · exact h2 h'⟩)

/-- The dedup helper never emits an element twice. -/
theorem nodup_dkfAux {α : Type} [DecidableEq α] (l : List α) :
    ∀ (seen : List α), (dkfAux l seen).Nodup := by
  induction l with
  | nil => intro seen; simp [dkfAux]
  | cons t ts ih =>
    intro seen
    by_cases ht : t ∈ seen
    · rw [dkfAux, if_pos ht]; exact ih seen
    · rw [dkfAux, if_neg ht]
      refine List.nodup_cons.mpr ⟨fun hc => ?_, ih (t :: seen)⟩
      exact ((mem_dkfAux ts (t :: seen) t).mp hc).2 (List.mem_cons_self t seen)

/-- First-occurrence deduplication preserves membership. -/
theorem mem_dedupKeepFirst {α : Type} [DecidableEq α] (l : List α) (x : α) :
    x ∈ dedupKeepFirst l ↔ x ∈ l := by
  rw [dedupKeepFirst, mem_dkfAux]
  simp

/-- First-occurrence deduplication yields a duplicate-free list. -/
theorem nodup_dedupKeepFirst {α : Type} [DecidableEq α] (l : List α) :
    (dedupKeepFirst l).Nodup := nodup_dkfAux l []

/-- Membership in one left tuple's emission row of the join cross loop. -/
theorem mem_joinPairs (cond : ValExpr) (l : Tuple) (rt : List Tuple) (m : Tuple) :
    m ∈ rt.filterMap (fun r =>
        let mm := dictUnion l r
        if truthy (eval_cond cond mm) then some (sortKeys mm) else none)
      ↔ ∃ r, r ∈ rt ∧ truthy (eval_cond cond (dictUnion l r)) = true
          ∧ m = sortKeys (dictUnion l r) := by
  rw [List.mem_filterMap]
  constructor
  · rintro ⟨r, hr, hf⟩
    by_cases ht : truthy (eval_cond cond (dictUnion l r)) = true
    · simp only [ht, if_true] at hf
      exact ⟨r, hr, ht, (Option.some.inj hf).symm⟩
    · simp only [ht, if_false] at hf
      simp at hf
  · rintro ⟨r, hr, ht, rfl⟩
    exact ⟨r, hr, by simp [ht]⟩

/-- Membership in the deduplicated cross-multiplication output of one key
group. -/
theorem mem_crossEmit (cond : ValExpr) (lt rt : List Tuple) (m : Tuple) :
    m ∈ crossEmit cond lt rt
      ↔ ∃ l, l ∈ lt ∧ ∃ r, r ∈ rt ∧ truthy (eval_cond cond (dictUnion l r)) = true
          ∧ m = sortKeys (dictUnion l r) := by
  unfold crossEmit
  rw [mem_dedupKeepFirst, List.mem_flatMap]
  constructor
  · rintro ⟨l, hl, hm⟩
    exact ⟨l, hl, (mem_joinPairs cond l rt m).mp hm⟩
  · rintro ⟨l, hl, hrest⟩
    exact ⟨l, hl, (mem_joinPairs cond l rt m).mpr hrest⟩

/-- Membership in the reference join. -/
theorem mem_refJoin (cond : ValExpr) (L R : List Tuple) (m : Tuple) :
    m ∈ refJoin cond L R
      ↔ ∃ l, l ∈ L ∧ ∃ r, r ∈ R ∧ truthy (eval_cond cond (dictUnion l r)) = true
          ∧ m = sortKeys (dictUnion l r) := by
  unfold refJoin
  rw [List.mem_flatMap]
  constructor
  · rintro ⟨l, hl, hm⟩
    exact ⟨l, hl, (mem_joinPairs cond l R m).mp hm⟩
  · rintro ⟨l, hl, hrest⟩
    exact ⟨l, hl, (mem_joinPairs cond l R m).mpr hrest⟩

/-- Membership in one shuffle group. -/
theorem mem_groupOf (cond : ValExpr) (records : List (String × Tuple))
    (k : String) (p : String × Tuple) :
    p ∈ groupOf cond records k ↔ (p ∈ records ∧ mapKey cond p.2 = some k) := by
  unfold groupOf keyedRecords
  constructor
  · intro h
    obtain ⟨q, hq, hif⟩ := List.mem_filterMap.mp h
    by_cases hk : q.1 = k
    · simp only [hk, if_pos] at hif
      have hqp : q.2 = p := Option.some.inj hif
      obtain ⟨p', hp', hmap⟩ := List.mem_filterMap.mp hq
      obtain ⟨k', hk', heq⟩ := Option.map_eq_some'.mp hmap
      have hq1 : q.1 = k' := by rw [← heq]
      have hq2 : q.2 = p' := by rw [← heq]
      have hpp : p = p' := by rw [← hqp, hq2]
      subst hpp
      refine ⟨hp', ?_⟩
      rw [hk']
      have hkk : k' = k := by rw [← hq1, hk]
      rw [hkk]
    · simp [hk] at hif
  · rintro ⟨hp, hmk⟩
    refine List.mem_filterMap.mpr ⟨(k, p), List.mem_filterMap.mpr ⟨p, hp, ?_⟩, by simp⟩
    rw [hmk]
    rfl

/-- Membership in the distinct repartition keys of a join execution. -/
theorem mem_joinKeys (cond : ValExpr) (records : List (String × Tuple)) (k : String) :
    k ∈ joinKeys cond records ↔ ∃ p, p ∈ records ∧ mapKey cond p.2 = some k := by
  unfold joinKeys keyedRecords
  rw [List.mem_dedup, List.mem_map]
  constructor
  · rintro ⟨q, hq, hk⟩
    obtain ⟨p', hp', hmap⟩ := List.mem_filterMap.mp hq
    obtain ⟨k', hk', heq⟩ := Option.map_eq_some'.mp hmap
    have hq1 : q.1 = k' := by rw [← heq]
    exact ⟨p', hp', by rw [hk', ← hq1, hk]⟩
  · rintro ⟨p, hp, hmk⟩
    refine ⟨(k, p), List.mem_filterMap.mpr ⟨p, hp, ?_⟩, rfl⟩
    rw [hmk]
    rfl

/-- A record labeled with a left relation name joins the left candidate
list. -/
theorem mem_leftCandidates_intro (leftR rightR : List String)
    (vals : List (String × Tuple)) (rel : String) (t : Tuple)
    (hmem : (rel, t) ∈ vals) (h1 : rel ∈ leftR) :
    t ∈ leftCandidates leftR rightR vals :=
  List.mem_filterMap.mpr ⟨(rel, t), hmem, by simp [leftCandidates, h1]⟩

/-- A record labeled with a right relation name (and not a left one) joins
the right candidate list. -/
theorem mem_rightCandidates_intro (leftR rightR : List String)
    (vals : List (String × Tuple)) (rel : String) (t : Tuple)
    (hmem : (rel, t) ∈ vals) (h1 : rel ∉ leftR) (h2 : rel ∈ rightR) :
    t ∈ rightCandidates leftR rightR vals :=
  List.mem_filterMap.mpr ⟨(rel, t), hmem, by simp [rightCandidates, h1, h2]⟩

/-- Every left candidate comes from a group record whose label is either a
left relation name or matches neither side. -/
theorem mem_leftCandidates_elim (leftR rightR : List String)
    (vals : List (String × Tuple)) (t : Tuple)
    (h : t ∈ leftCandidates leftR rightR vals) :
    ∃ rel, (rel, t) ∈ vals ∧ (rel ∈ leftR ∨ (rel ∉ leftR ∧ rel ∉ rightR)) := by
  obtain ⟨p, hp, hf⟩ := List.mem_filterMap.mp h
  by_cases h1 : p.1 ∈ leftR
  · have h2 : p.2 = t := by simpa [h1] using hf
    subst h2
    exact ⟨p.1, by rw [Prod.mk.eta]; exact hp, Or.inl h1⟩
  · by_cases h2 : p.1 ∈ rightR
    · simp [h1, h2] at hf
    · by_cases h3 : (qualsOf p.2).any (fun q => decide (q ∈ leftR)) = true
      · have h4 : p.2 = t := by simpa [h1, h2, h3] using hf
        subst h4
        exact ⟨p.1, by rw [Prod.mk.eta]; exact hp, Or.inr ⟨h1, h2⟩⟩
      · simp [h1, h2, h3] at hf

/-- Every right candidate comes from a group record whose label is a right
relation name and not a left one, or matches neither side. -/
theorem mem_rightCandidates_elim (leftR rightR : List String)
    (vals : List (String × Tuple)) (t : Tuple)
    (h : t ∈ rightCandidates leftR rightR vals) :
    ∃ rel, (rel, t) ∈ vals ∧ ((rel ∉ leftR ∧ rel ∈ rightR) ∨ (rel ∉ leftR ∧ rel ∉ rightR)) := by
  obtain ⟨p, hp, hf⟩ := List.mem_filterMap.mp h
  by_cases h1 : p.1 ∈ leftR
  · simp [h1] at hf
  · by_cases h2 : p.1 ∈ rightR
    · have h3 : p.2 = t := by simpa [h1, h2] using hf
      subst h3
      exact ⟨p.1, by rw [Prod.mk.eta]; exact hp, Or.inl ⟨h1, h2⟩⟩
    · by_cases h3 : (qualsOf p.2).any (fun q => decide (q ∈ rightR)) = true
      · have h4 : p.2 = t := by simpa [h1, h2, h3] using hf
        subst h4
        exact ⟨p.1, by rw [Prod.mk.eta]; exact hp, Or.inr ⟨h1, h2⟩⟩
      · simp [h1, h2, h3] at hf

/-- C1 counterexample: with condition L.a = R.a, a left tuple carrying only
L.x is dropped by the map phase (neither side of the equality resolves on
it), yet the reference output contains its merge with the right tuple, on
which the condition evaluates truthily through suffix matching; the
distributed Join therefore emits strictly less than the reference set. -/
theorem c1_counterexample :
    joinOutput exCond1 ["L"] ["R"] exRecs1 = []
    ∧ refJoin exCond1 [[("L.x", Value.vInt 1)]] [[("R.a", Value.vInt 5)]]
      = [[("L.x", Value.vInt 1), ("R.a", Value.vInt 5)]] := by decide

/-- C1 amended: the distributed Join computes exactly the reference set
provided (i) the two branches' relation-name sets are disjoint, (ii) every
input record is labeled with a relation name of its own branch, and (iii)
every left-right pair satisfying the condition maps both tuples to the same
defined repartition key.  Under these hypotheses every merged tuple the
executor emits lies in the reference set and conversely; the reduce phase
never emits a duplicate merged result within one key group; and an empty
side yields an empty output. -/
theorem c1_join_reference (cond : ValExpr) (leftR rightR : List String)
    (lrecs rrecs : List (String × Tuple))
    (hdisj : ∀ n ∈ leftR, n ∉ rightR)
    (hlab1 : ∀ p ∈ lrecs, p.1 ∈ leftR)
    (hlab2 : ∀ p ∈ rrecs, p.1 ∈ rightR)
    (hkey : ∀ p ∈ lrecs, ∀ q ∈ rrecs,
      truthy (eval_cond cond (dictUnion p.2 q.2)) = true →
      (mapKey cond p.2).isSome = true ∧ mapKey cond p.2 = mapKey cond q.2) :
    (∀ m, m ∈ joinOutput cond leftR rightR (lrecs ++ rrecs)
        ↔ m ∈ refJoin cond (lrecs.map (fun p => p.2)) (rrecs.map (fun p => p.2)))
    ∧ (∀ vals, (reduceJoin cond leftR rightR vals).Nodup)
    ∧ ((lrecs = [] ∨ rrecs = []) → joinOutput cond leftR rightR (lrecs ++ rrecs) = []) := by
  have main : ∀ m, m ∈ joinOutput cond leftR rightR (lrecs ++ rrecs)
      ↔ m ∈ refJoin cond (lrecs.map (fun p => p.2)) (rrecs.map (fun p => p.2)) := by
    intro m
    constructor
    · intro hm
      obtain ⟨k, hk, hmred⟩ := List.mem_flatMap.mp hm
      simp only [reduceJoin] at hmred
      split at hmred
      · simp at hmred
      · obtain ⟨l, hlmem, r, hrmem, ht, rfl⟩ :=
          (mem_crossEmit cond _ _ m).mp hmred
        obtain ⟨rel, hrel, hcase⟩ := mem_leftCandidates_elim leftR rightR _ l hlmem
        obtain ⟨rel', hrel', hcase'⟩ := mem_rightCandidates_elim leftR rightR _ r hrmem
        have hrecl : (rel, l) ∈ lrecs ++ rrecs :=
          ((mem_groupOf cond (lrecs ++ rrecs) k (rel, l)).mp hrel).1
        have hrecr : (rel', r) ∈ lrecs ++ rrecs :=
          ((mem_groupOf cond (lrecs ++ rrecs) k (rel', r)).mp hrel').1
        have hlmem' : l ∈ lrecs.map (fun p => p.2) := by
          rcases List.mem_append.mp hrecl with hin | hin
          · exact List.mem_map_of_mem (fun p => p.2) hin
          · exfalso
            have hrr : rel ∈ rightR := hlab2 (rel, l) hin
            rcases hcase with hc | hc
            · exact hdisj rel hc hrr
            · exact hc.2 hrr
        have hrmem' : r ∈ rrecs.map (fun p => p.2) := by
          rcases List.mem_append.mp hrecr with hin | hin
          · exfalso
            have hll : rel' ∈ leftR := hlab1 (rel', r) hin
            rcases hcase' with hc | hc
            · exact hc.1 hll
            · exact hc.1 hll
          · exact List.mem_map_of_mem (fun p => p.2) hin
        exact (mem_refJoin cond _ _ _).mpr ⟨l, hlmem', r, hrmem', ht, rfl⟩
    · intro hm
      obtain ⟨l, hlm, r, hrm, ht, rfl⟩ := (mem_refJoin cond _ _ _).mp hm
      obtain ⟨pl, hpl, hpl2⟩ := List.mem_map.mp hlm
      obtain ⟨pr, hpr, hpr2⟩ := List.mem_map.mp hrm
      subst hpl2
      subst hpr2
      have hkk := hkey pl hpl pr hpr ht
      obtain ⟨k, hks⟩ := Option.isSome_iff_exists.mp hkk.1
      have hkr : mapKey cond pr.2 = some k := by rw [← hkk.2]; exact hks
      have hkmem : k ∈ joinKeys cond (lrecs ++ rrecs) :=
        (mem_joinKeys cond _ k).mpr ⟨pl, List.mem_append_left _ hpl, hks⟩
      refine List.mem_flatMap.mpr ⟨k, hkmem, ?_⟩
      have hgl : pl ∈ groupOf cond (lrecs ++ rrecs) k :=
        (mem_groupOf cond _ k pl).mpr ⟨List.mem_append_left _ hpl, hks⟩
      have hgr : pr ∈ groupOf cond (lrecs ++ rrecs) k :=
        (mem_groupOf cond _ k pr).mpr ⟨List.mem_append_right _ hpr, hkr⟩
      have hglp : (pl.1, pl.2) ∈ groupOf cond (lrecs ++ rrecs) k := by
        rw [Prod.mk.eta]; exact hgl
      have hgrp : (pr.1, pr.2) ∈ groupOf cond (lrecs ++ rrecs) k := by
        rw [Prod.mk.eta]; exact hgr
      have hlc : pl.2 ∈ leftCandidates leftR rightR (groupOf cond (lrecs ++ rrecs) k) :=
        mem_leftCandidates_intro leftR rightR _ pl.1 pl.2 hglp (hlab1 pl hpl)
      have hnotleft : pr.1 ∉ leftR :=
        fun hin => hdisj pr.1 hin (hlab2 pr hpr)
      have hrc : pr.2 ∈ rightCandidates leftR rightR (groupOf cond (lrecs ++ rrecs) k) :=
        mem_rightCandidates_intro leftR rightR _ pr.1 pr.2 hgrp hnotleft (hlab2 pr hpr)
      have hne1 : leftCandidates leftR rightR (groupOf cond (lrecs ++ rrecs) k) ≠ [] :=
        List.ne_nil_of_mem hlc
      have hne2 : rightCandidates leftR rightR (groupOf cond (lrecs ++ rrecs) k) ≠ [] :=
        List.ne_nil_of_mem hrc
      have hguard :
          ((leftCandidates leftR rightR (groupOf cond (lrecs ++ rrecs) k)).isEmpty
            || (rightCandidates leftR rightR (groupOf cond (lrecs ++ rrecs) k)).isEmpty)
            = false := by
        obtain ⟨a1, t1, he1⟩ := List.exists_cons_of_ne_nil hne1
        obtain ⟨a2, t2, he2⟩ := List.exists_cons_of_ne_nil hne2
        rw [he1, he2]
        rfl
      simp only [reduceJoin, hguard, Bool.false_eq_true, if_false]
      exact (mem_crossEmit cond _ _ _).mpr ⟨pl.2, hlc, pr.2, hrc, ht, rfl⟩
  refine ⟨main, ?_, ?_⟩
  · intro vals
    simp only [reduceJoin]
    split
    · exact List.nodup_nil
    · exact nodup_dedupKeepFirst _
  · intro hcase
    rw [List.eq_nil_iff_forall_not_mem]
    intro m hm
    have href := (main m).mp hm
    rcases hcase with hc | hc
    · subst hc
      simp [refJoin] at href
    · subst hc
      simp [refJoin] at href

/-- Witness for C1: on single-record branches L and R with condition
L.a = R.a and matching key values, the hypotheses hold and the executor's
output membership agrees with the reference set at the merged tuple. -/
theorem c1_join_reference_witness :
    (∀ n ∈ (["L"] : List String), n ∉ (["R"] : List String))
    ∧ (∀ p ∈ exLrecs, p.1 ∈ (["L"] : List String))
    ∧ (∀ p ∈ exRrecs, p.1 ∈ (["R"] : List String))
    ∧ (∀ p ∈ exLrecs, ∀ q ∈ exRrecs,
        truthy (eval_cond exCond1 (dictUnion p.2 q.2)) = true →
        (mapKey exCond1 p.2).isSome = true ∧ mapKey exCond1 p.2 = mapKey exCond1 q.2)
    ∧ ([("L.a", Value.vInt 1), ("R.a", Value.vInt 1)]
          ∈ joinOutput exCond1 ["L"] ["R"] (exLrecs ++ exRrecs)
        ↔ [("L.a", Value.vInt 1), ("R.a", Value.vInt 1)]
          ∈ refJoin exCond1 (exLrecs.map (fun p => p.2)) (exRrecs.map (fun p => p.2))) :=
  ⟨by decide, by decide, by decide, by decide,
    (c1_join_reference exCond1 ["L"] ["R"] exLrecs exRrecs
      (by decide) (by decide) (by decide) (by decide)).1
      [("L.a", Value.vInt 1), ("R.a", Value.vInt 1)]⟩
